import Mathlib

/-!
# Verification of the fastuuid generator and hex encoder

Shallow embedding of the library's two source components:

* the generator (struct with a 24-byte random seed and an atomic
  counter word) with its next operation,
* the hex128 encoder (byte swap, version/variant bit twiddling,
  lowercase hex encoding, hyphen insertion) and the validity checker.

Bytes are modelled as natural numbers (a well-formed byte is < 256);
fixed-size byte arrays as functions out of Fin; the usize counter word
as a natural number kept below 2^64 (the library targets 64-bit
platforms; atomic fetch-add wraps modulo 2^64).  Rust strings are
modelled as lists of unicode scalar values (Char) together with an
explicit UTF-8 byte layer, so that byte-indexed slicing — which panics
off a character boundary — can be modelled by an Option result.
-/

namespace Fastuuid

/-- The usize counter word is 64 bits wide on the supported platform. -/
def usizeSize : Nat := 2 ^ 64

/-- Generator state: the constant random 24-byte seed and the value of
the atomic counter word.  The first 8 seed bytes are stored in the
counter at construction and used for generating new UUIDs. -/
structure Generator where
  seed : Fin 24 → Nat
  counter : Nat

/-- The initial counter word: u64::from_le_bytes over seed bytes 0..8,
i.e. the little-endian reinterpretation of the first 8 seed bytes. -/
def counterInit (seed : Fin 24 → Nat) : Nat :=
  seed 0 + 256 * (seed 1 + 256 * (seed 2 + 256 * (seed 3 +
    256 * (seed 4 + 256 * (seed 5 + 256 * (seed 6 + 256 * seed 7))))))

/-- Generator::new for a given draw of the random source.  The u64 read
from the seed is converted to usize with try_into().unwrap(): on the
64-bit platform the conversion succeeds exactly when the value fits in
the 64-bit counter word, otherwise the unwrap panics (modelled none). -/
def Generator.new (seed : Fin 24 → Nat) : Option Generator :=
  let v := counterInit seed
  if v < usizeSize then some ⟨seed, v⟩ else none

/-- Little-endian byte k of a counter word (usize::to_le_bytes). -/
def leByte (v k : Nat) : Nat := v / 256 ^ k % 256

/-- Generator::next: fetch-add 1 on the counter (wrapping, SeqCst),
write the pre-increment value's little-endian bytes into output bytes
0..8 and copy seed bytes 8..24 into output bytes 8..24.  Result: the
fresh 24-byte uuid and the post state. -/
def Generator.next (g : Generator) : (Fin 24 → Nat) × Generator :=
  let current := g.counter
  (fun i => if (i : Nat) < 8 then leByte current i else g.seed i,
   ⟨g.seed, (g.counter + 1) % usizeSize⟩)

/-- State after n successive next() calls. -/
def Generator.iterate (g : Generator) : Nat → Generator
  | 0 => g
  | n + 1 => (Generator.iterate g n).next.2

/-- The uuid returned by the (n+1)-st call to next(). -/
def Generator.nthOutput (g : Generator) (n : Nat) : Fin 24 → Nat :=
  ((g.iterate n).next).1

/-! ## Hex128 encoder -/

/-- temp_uuid.swap(6, 9). -/
def swap69 (b : Fin 24 → Nat) : Fin 24 → Nat := fun i =>
  if (i : Nat) = 6 then b 9 else if (i : Nat) = 9 then b 6 else b i

/-- temp_uuid[6] = (temp_uuid[6] & 0x0f) | 0x40 (version 4 marker). -/
def setV4 (b : Fin 24 → Nat) : Fin 24 → Nat := fun i =>
  if (i : Nat) = 6 then Nat.lor (Nat.land (b 6) 0x0f) 0x40 else b i

/-- temp_uuid[8] = temp_uuid[8] & 0x3f | 0x80 (RFC4122 variant marker). -/
def setVariant (b : Fin 24 → Nat) : Fin 24 → Nat := fun i =>
  if (i : Nat) = 8 then Nat.lor (Nat.land (b 8) 0x3f) 0x80 else b i

/-- The scratch buffer of hex128_from_bytes after copying the input and
applying, in order, the 6/9 swap, the version overwrite of byte 6, and
the variant overwrite of byte 8. -/
def temp_uuid (uuid : Fin 24 → Nat) : Fin 24 → Nat :=
  setVariant (setV4 (swap69 uuid))

/-- Lowercase hex digit table lookup: entry d of b"0123456789abcdef". -/
def hexChar (d : Nat) : Nat := if d < 10 then 48 + d else 87 + d

/-- faster_hex::hex_encode of src into the first 2*16 buffer bytes:
position 2*i gets the high nibble's digit, 2*i+1 the low nibble's. -/
def hex_encode_into (src : Fin 16 → Nat) (buffer : Fin 36 → Nat) :
    Fin 36 → Nat := fun i =>
  if h : (i : Nat) < 32 then
    if (i : Nat) % 2 = 0 then
      hexChar (Nat.shiftRight (src ⟨(i : Nat) / 2, by omega⟩) 4)
    else
      hexChar (Nat.land (src ⟨(i : Nat) / 2, by omega⟩) 0x0f)
  else buffer i

/-- slice::copy_within(s..e, d): bytes d..d+(e-s) receive the bytes
that were at s..e; everything else is untouched. -/
def copyWithin (buf : Fin 36 → Nat) (s e d : Nat) : Fin 36 → Nat :=
  fun i =>
    if h : d ≤ (i : Nat) ∧ (i : Nat) < d + (e - s) ∧ s + ((i : Nat) - d) < 36 then
      buf ⟨s + ((i : Nat) - d), h.2.2⟩
    else buf i

/-- buffer[j] = v for a fixed byte index j. -/
def setAt (buf : Fin 36 → Nat) (j v : Nat) : Fin 36 → Nat := fun i =>
  if (i : Nat) = j then v else buf i

/-- Generator::hex128_from_bytes: copy the uuid into a scratch buffer,
swap bytes 6 and 9, force the version and variant bits, hex-encode the
first 16 scratch bytes into buffer bytes 0..32, then shift the hex
groups apart with four copy_within calls and write the hyphens at
8, 13, 18 and 23. -/
def hex128_from_bytes (uuid : Fin 24 → Nat) (buffer : Fin 36 → Nat) :
    Fin 36 → Nat :=
  let t := temp_uuid uuid
  let b0 := hex_encode_into (fun i => t ⟨(i : Nat), by omega⟩) buffer
  let b1 := copyWithin b0 20 32 24
  let b2 := copyWithin b1 16 20 19
  let b3 := copyWithin b2 12 16 14
  let b4 := copyWithin b3 8 12 9
  setAt (setAt (setAt (setAt b4 8 45) 13 45) 18 45) 23 45

/-! ## Closed-form characterization of the encoder output -/

/-- Total access into a 24-byte array (out-of-range reads 0; only used
at indices below 16). -/
def tAt (t : Fin 24 → Nat) (n : Nat) : Nat :=
  if h : n < 24 then t ⟨n, h⟩ else 0

/-- The digit index stored at output position i (positions 8, 13, 18
and 23 hold hyphens and have no digit). -/
def hexIndex (i : Nat) : Nat :=
  if i < 8 then i else if i < 13 then i - 1 else if i < 18 then i - 2
  else if i < 23 then i - 3 else i - 4

/-- Output byte position of digit j in the 8-4-4-4-12 layout. -/
def hexPos (j : Nat) : Nat :=
  if j < 8 then j else if j < 12 then j + 1 else if j < 16 then j + 2
  else if j < 20 then j + 3 else j + 4

/-- Digit j of the hex encoding of the processed 16-byte prefix:
even digits are high nibbles, odd digits low nibbles. -/
def encodedDigit (t : Fin 24 → Nat) (j : Nat) : Nat :=
  if j % 2 = 0 then hexChar (Nat.shiftRight (tAt t (j / 2)) 4)
  else hexChar (Nat.land (tAt t (j / 2)) 0x0f)

/-- The encoder output, position by position: hyphens at 8, 13, 18, 23
and hex digits of the processed bytes everywhere else. -/
def outSpec (t : Fin 24 → Nat) : Fin 36 → Nat := fun i =>
  if (i : Nat) = 8 ∨ (i : Nat) = 13 ∨ (i : Nat) = 18 ∨ (i : Nat) = 23 then 45
  else encodedDigit t (hexIndex (i : Nat))

set_option maxHeartbeats 3000000 in
theorem hex128_from_bytes_eq (uuid : Fin 24 → Nat) (buffer : Fin 36 → Nat) :
    hex128_from_bytes uuid buffer = outSpec (temp_uuid uuid) := by
  funext i
  rcases i with ⟨iv, hiv⟩
  interval_cases iv <;>
    norm_num [hex128_from_bytes, outSpec, setAt, copyWithin,
      hex_encode_into, hexIndex, encodedDigit, tAt]

/-! ## Generator lemmas -/

theorem iterate_seed (g : Generator) (n : Nat) : (g.iterate n).seed = g.seed := by
  induction n with
  | zero => rfl
  | succ n ih => simp [Generator.iterate, Generator.next, ih]

theorem iterate_counter (g : Generator) (hc : g.counter < usizeSize) (n : Nat) :
    (g.iterate n).counter = (g.counter + n) % usizeSize := by
  induction n with
  | zero =>
    simp [Generator.iterate, Nat.mod_eq_of_lt hc]
  | succ n ih =>
    show ((g.iterate n).next).2.counter = _
    simp only [Generator.next, ih, usizeSize]
    omega

theorem nthOutput_lt8 (g : Generator) (hc : g.counter < usizeSize) (n : Nat)
    (k : Fin 24) (hk : (k : Nat) < 8) :
    g.nthOutput n k = (g.counter + n) % usizeSize / 256 ^ (k : Nat) % 256 := by
  simp [Generator.nthOutput, Generator.next, leByte, hk, iterate_counter g hc]

theorem nthOutput_ge8 (g : Generator) (n : Nat) (k : Fin 24) (hk : 8 ≤ (k : Nat)) :
    g.nthOutput n k = g.seed k := by
  simp only [Generator.nthOutput, Generator.next, iterate_seed]
  rw [if_neg (by omega)]

/-- Two distinct counter words below 2^64 differ in one of their first
8 little-endian bytes. -/
theorem le_bytes_inj (a b : Nat) (ha : a < usizeSize) (hb : b < usizeSize)
    (h : ∀ k : Nat, k < 8 → a / 256 ^ k % 256 = b / 256 ^ k % 256) : a = b := by
  have h0 := h 0 (by omega)
  have h1 := h 1 (by omega)
  have h2 := h 2 (by omega)
  have h3 := h 3 (by omega)
  have h4 := h 4 (by omega)
  have h5 := h 5 (by omega)
  have h6 := h 6 (by omega)
  have h7 := h 7 (by omega)
  norm_num [usizeSize] at *
  omega

/-- C1: for every generator state and every N up to 2^64, the N uuids
returned by N successive next() calls are pairwise distinct, because
the pre-increment counter values are pairwise distinct modulo 2^64 and
the counter bytes occupy output bytes 0-7. -/
theorem next_unique (g : Generator) (hc : g.counter < usizeSize)
    (N i j : Nat) (hN : N ≤ usizeSize) (hi : i < N) (hj : j < N) (hij : i ≠ j) :
    g.nthOutput i ≠ g.nthOutput j := by
  intro heq
  have hbytes : ∀ k : Nat, k < 8 →
      (g.counter + i) % usizeSize / 256 ^ k % 256 =
      (g.counter + j) % usizeSize / 256 ^ k % 256 := by
    intro k hk
    have := congrFun heq ⟨k, by omega⟩
    rwa [nthOutput_lt8 g hc i ⟨k, by omega⟩ hk,
      nthOutput_lt8 g hc j ⟨k, by omega⟩ hk] at this
  have hca : (g.counter + i) % usizeSize = (g.counter + j) % usizeSize :=
    le_bytes_inj _ _ (Nat.mod_lt _ (by norm_num [usizeSize]))
      (Nat.mod_lt _ (by norm_num [usizeSize])) hbytes
  simp only [usizeSize] at hca hN
  omega

/-- C1 witness: a concrete generator's first two outputs differ. -/
theorem next_unique_witness :
    (Generator.mk (fun _ => 3) 0).nthOutput 0 ≠ (Generator.mk (fun _ => 3) 0).nthOutput 1 :=
  next_unique ⟨fun _ => 3, 0⟩ (by norm_num [usizeSize]) 2 0 1
    (by norm_num [usizeSize]) (by norm_num) (by norm_num) (by norm_num)

/-- C2: next() returns exactly 24 bytes; bytes 0-7 are the little-endian
bytes of the pre-increment counter (and reassemble to exactly that
value); bytes 8-23 are seed bytes 8-23 verbatim; the state change is
that the counter increases by exactly one and the seed is unchanged. -/
theorem next_spec (g : Generator) (hc : g.counter + 1 < usizeSize) :
    (List.ofFn (g.next).1).length = 24 ∧
    (∀ i : Fin 24, (i : Nat) < 8 →
      (g.next).1 i = g.counter / 256 ^ (i : Nat) % 256) ∧
    (g.next).1 ⟨0, by omega⟩ + 256 * ((g.next).1 ⟨1, by omega⟩ +
      256 * ((g.next).1 ⟨2, by omega⟩ + 256 * ((g.next).1 ⟨3, by omega⟩ +
      256 * ((g.next).1 ⟨4, by omega⟩ + 256 * ((g.next).1 ⟨5, by omega⟩ +
      256 * ((g.next).1 ⟨6, by omega⟩ +
      256 * (g.next).1 ⟨7, by omega⟩)))))) = g.counter ∧
    (∀ i : Fin 24, 8 ≤ (i : Nat) → (g.next).1 i = g.seed i) ∧
    (g.next).2.counter = g.counter + 1 ∧
    (g.next).2.seed = g.seed := by
  refine ⟨rfl, ?_, ?_, ?_, ?_, ?_⟩
  · intro i hi
    simp [Generator.next, leByte, hi]
  · have hc2 : g.counter < 2 ^ 64 := by simp only [usizeSize] at hc; omega
    simp only [Generator.next]
    norm_num [leByte]
    omega
  · intro i hi
    simp only [Generator.next]
    rw [if_neg (by omega)]
  · show (g.counter + 1) % usizeSize = g.counter + 1
    exact Nat.mod_eq_of_lt hc
  · rfl

/-- C2 witness at a concrete state. -/
theorem next_spec_witness :
    (List.ofFn ((Generator.mk (fun _ => 9) 5).next).1).length = 24 ∧
    ((Generator.mk (fun _ => 9) 5).next).1 ⟨0, by omega⟩ = 5 ∧
    ((Generator.mk (fun _ => 9) 5).next).1 ⟨8, by omega⟩ = 9 ∧
    ((Generator.mk (fun _ => 9) 5).next).2.counter = 6 := by
  have h := next_spec ⟨fun _ => 9, 5⟩ (by norm_num [usizeSize])
  refine ⟨h.1, ?_, ?_, ?_⟩
  · rw [h.2.1 ⟨0, by omega⟩ (by norm_num)]
    norm_num
  · rw [h.2.2.2.1 ⟨8, by omega⟩ (by norm_num)]
  · rw [h.2.2.2.2.1]

/-- C8: construction is total: for any well-formed 24-byte seed draw the
u64-to-usize conversion succeeds and the stored counter is the
little-endian u64 read from seed bytes 0-7. -/
theorem new_spec (seed : Fin 24 → Nat) (hb : ∀ i : Fin 24, seed i < 256) :
    Generator.new seed = some ⟨seed, counterInit seed⟩ := by
  have hlt : counterInit seed < usizeSize := by
    have h0 := hb 0
    have h1 := hb 1
    have h2 := hb 2
    have h3 := hb 3
    have h4 := hb 4
    have h5 := hb 5
    have h6 := hb 6
    have h7 := hb 7
    simp only [counterInit, usizeSize]
    omega
  simp [Generator.new, hlt]

/-- C8 witness at a concrete seed. -/
theorem new_spec_witness :
    Generator.new (fun _ => 7) = some ⟨fun _ => 7, counterInit fun _ => 7⟩ :=
  new_spec (fun _ => 7) (fun _ => by norm_num)

/-! ## Bit-twiddling facts -/

theorem lor64_eq : ∀ a : Nat, a < 16 → Nat.lor a 64 = 64 + a := by decide

theorem lor128_eq : ∀ a : Nat, a < 64 → Nat.lor a 128 = 128 + a := by decide

theorem land15_eq (x : Nat) : Nat.land x 15 = x % 16 :=
  Nat.and_pow_two_sub_one_eq_mod x 4

theorem land63_eq (x : Nat) : Nat.land x 63 = x % 64 :=
  Nat.and_pow_two_sub_one_eq_mod x 6

theorem temp6_eq (uuid : Fin 24 → Nat) :
    temp_uuid uuid 6 = 64 + uuid 9 % 16 := by
  have : temp_uuid uuid 6 = Nat.lor (Nat.land (uuid 9) 15) 64 := by
    simp [temp_uuid, setVariant, setV4, swap69,
      show ((6 : Fin 24) : Nat) = 6 from rfl, show ((8 : Fin 24) : Nat) = 8 from rfl,
      show ((9 : Fin 24) : Nat) = 9 from rfl]
  rw [this, land15_eq, lor64_eq _ (Nat.mod_lt _ (by norm_num))]

theorem temp8_eq (uuid : Fin 24 → Nat) :
    temp_uuid uuid 8 = 128 + uuid 8 % 64 := by
  have : temp_uuid uuid 8 = Nat.lor (Nat.land (uuid 8) 63) 128 := by
    simp [temp_uuid, setVariant, setV4, swap69,
      show ((6 : Fin 24) : Nat) = 6 from rfl, show ((8 : Fin 24) : Nat) = 8 from rfl,
      show ((9 : Fin 24) : Nat) = 9 from rfl]
  rw [this, land63_eq, lor128_eq _ (Nat.mod_lt _ (by norm_num))]

theorem temp9_eq (uuid : Fin 24 → Nat) : temp_uuid uuid 9 = uuid 6 := by
  simp [temp_uuid, setVariant, setV4, swap69,
    show ((6 : Fin 24) : Nat) = 6 from rfl, show ((8 : Fin 24) : Nat) = 8 from rfl,
    show ((9 : Fin 24) : Nat) = 9 from rfl]

theorem temp_other_eq (uuid : Fin 24 → Nat) (i : Fin 24)
    (h6 : (i : Nat) ≠ 6) (h8 : (i : Nat) ≠ 8) (h9 : (i : Nat) ≠ 9) :
    temp_uuid uuid i = uuid i := by
  simp [temp_uuid, setVariant, setV4, swap69, h6, h8, h9]

/-- C3: the processed 16-byte prefix is obtained by swapping input
bytes 6 and 9, then replacing byte 6 by (old & 0x0f) | 0x40 — forcing
the high nibble to 0x4 while keeping the low nibble (of the swapped-in
former byte 9) — then replacing byte 8 by (old & 0x3f) | 0x80 — forcing
the two high bits to binary 10 while keeping the low 6 bits — in that
order; all other prefix bytes are the input bytes. -/
theorem temp_uuid_spec (uuid : Fin 24 → Nat) :
    temp_uuid uuid 6 = Nat.lor (Nat.land (uuid 9) 0x0f) 0x40 ∧
    temp_uuid uuid 6 / 16 = 4 ∧
    temp_uuid uuid 6 % 16 = uuid 9 % 16 ∧
    temp_uuid uuid 8 = Nat.lor (Nat.land (uuid 8) 0x3f) 0x80 ∧
    temp_uuid uuid 8 / 64 = 2 ∧
    temp_uuid uuid 8 % 64 = uuid 8 % 64 ∧
    temp_uuid uuid 9 = uuid 6 ∧
    ∀ i : Fin 24, (i : Nat) ≠ 6 → (i : Nat) ≠ 8 → (i : Nat) ≠ 9 →
      temp_uuid uuid i = uuid i := by
  have h6 := temp6_eq uuid
  have h8 := temp8_eq uuid
  refine ⟨?_, ?_, ?_, ?_, ?_, ?_, temp9_eq uuid, temp_other_eq uuid⟩
  · rw [h6, land15_eq, lor64_eq _ (Nat.mod_lt _ (by norm_num))]
  · rw [h6]; omega
  · rw [h6]; omega
  · rw [h8, land63_eq, lor128_eq _ (Nat.mod_lt _ (by norm_num))]
  · rw [h8]; omega
  · rw [h8]; omega

/-- C3 witness: instance of the characterization at a concrete input. -/
theorem temp_uuid_spec_witness :
    temp_uuid (fun i => (i : Nat)) 6 = Nat.lor (Nat.land 9 0x0f) 0x40 ∧
    temp_uuid (fun i => (i : Nat)) 6 / 16 = 4 ∧
    temp_uuid (fun i => (i : Nat)) 9 = 6 ∧
    temp_uuid (fun i => (i : Nat)) 0 = 0 := by
  have h := temp_uuid_spec fun i => (i : Nat)
  exact ⟨h.1, h.2.1, h.2.2.2.2.2.2.1,
    h.2.2.2.2.2.2.2 0 (by decide) (by decide) (by decide)⟩

/-! ## Encoder output shape -/

/-- ASCII bytes of lowercase hex digits. -/
def isHexDigitByte (b : Nat) : Prop := (48 ≤ b ∧ b ≤ 57) ∨ (97 ≤ b ∧ b ≤ 102)

instance (b : Nat) : Decidable (isHexDigitByte b) := by
  unfold isHexDigitByte
  infer_instance

theorem hexPos_lt (j : Nat) (hj : j < 32) : hexPos j < 36 := by
  unfold hexPos
  split_ifs <;> omega

theorem hexPos_ne_hyphen (j : Nat) (hj : j < 32) :
    hexPos j ≠ 8 ∧ hexPos j ≠ 13 ∧ hexPos j ≠ 18 ∧ hexPos j ≠ 23 := by
  unfold hexPos
  split_ifs <;> omega

theorem hexIndex_hexPos (j : Nat) (hj : j < 32) : hexIndex (hexPos j) = j := by
  unfold hexIndex hexPos
  split_ifs <;> omega

theorem hexIndex_div2_lt (n : Nat) (h : n < 36) : hexIndex n / 2 < 16 := by
  unfold hexIndex
  split_ifs <;> omega

/-- The processed bytes are still bytes when the input is made of
bytes. -/
theorem temp_lt (uuid : Fin 24 → Nat) (hwf : ∀ i : Fin 24, uuid i < 256)
    (n : Nat) : tAt (temp_uuid uuid) n < 256 := by
  unfold tAt
  split_ifs with hn
  · by_cases e6 : n = 6
    · subst e6
      rw [show (⟨6, hn⟩ : Fin 24) = 6 from rfl, temp6_eq]
      have := Nat.mod_lt (uuid 9) (show 0 < 16 by norm_num)
      omega
    · by_cases e8 : n = 8
      · subst e8
        rw [show (⟨8, hn⟩ : Fin 24) = 8 from rfl, temp8_eq]
        have := Nat.mod_lt (uuid 8) (show 0 < 64 by norm_num)
        omega
      · by_cases e9 : n = 9
        · subst e9
          rw [show (⟨9, hn⟩ : Fin 24) = 9 from rfl, temp9_eq]
          exact hwf 6
        · rw [temp_other_eq uuid ⟨n, hn⟩ e6 e8 e9]
          exact hwf ⟨n, hn⟩
  · norm_num

theorem hexChar_isHexDigitByte (d : Nat) (hd : d < 16) :
    isHexDigitByte (hexChar d) := by
  unfold hexChar isHexDigitByte
  split_ifs <;> omega

theorem encodedDigit_isHexDigitByte (uuid : Fin 24 → Nat)
    (hwf : ∀ i : Fin 24, uuid i < 256) (j : Nat) :
    isHexDigitByte (encodedDigit (temp_uuid uuid) j) := by
  unfold encodedDigit
  have hb := temp_lt uuid hwf (j / 2)
  split_ifs
  · refine hexChar_isHexDigitByte _ ?_
    have hs : Nat.shiftRight (tAt (temp_uuid uuid) (j / 2)) 4 =
        tAt (temp_uuid uuid) (j / 2) / 2 ^ 4 :=
      Nat.shiftRight_eq_div_pow _ 4
    omega
  · exact hexChar_isHexDigitByte _ (by rw [land15_eq]; omega)

/-- C4: the encoder output is exactly 36 bytes, carries the hyphen
byte 45 at positions 8, 13, 18, 23, and at every other position the
lowercase hex digit bytes of the 16 processed bytes in order, laid out
as the 8-4-4-4-12 grouping (digit j lands at position hexPos j). -/
theorem hex_output_shape (uuid : Fin 24 → Nat) (buffer : Fin 36 → Nat)
    (hwf : ∀ i : Fin 24, uuid i < 256) :
    (List.ofFn (hex128_from_bytes uuid buffer)).length = 36 ∧
    hex128_from_bytes uuid buffer ⟨8, by omega⟩ = 45 ∧
    hex128_from_bytes uuid buffer ⟨13, by omega⟩ = 45 ∧
    hex128_from_bytes uuid buffer ⟨18, by omega⟩ = 45 ∧
    hex128_from_bytes uuid buffer ⟨23, by omega⟩ = 45 ∧
    ∀ j : Nat, (hj : j < 32) →
      hex128_from_bytes uuid buffer ⟨hexPos j, hexPos_lt j hj⟩ =
        encodedDigit (temp_uuid uuid) j ∧
      isHexDigitByte (encodedDigit (temp_uuid uuid) j) := by
  rw [hex128_from_bytes_eq]
  refine ⟨rfl, by norm_num [outSpec], by norm_num [outSpec],
    by norm_num [outSpec], by norm_num [outSpec], ?_⟩
  intro j hj
  have hne := hexPos_ne_hyphen j hj
  constructor
  · show outSpec (temp_uuid uuid) ⟨hexPos j, _⟩ = _
    rw [outSpec]
    rw [if_neg (by push_neg; exact ⟨hne.1, hne.2.1, hne.2.2.1, hne.2.2.2⟩)]
    rw [hexIndex_hexPos j hj]
  · exact encodedDigit_isHexDigitByte uuid hwf j

/-- C4 witness at a concrete input. -/
theorem hex_output_shape_witness :
    (List.ofFn (hex128_from_bytes (fun _ => 0) fun _ => 0)).length = 36 ∧
    hex128_from_bytes (fun _ => 0) (fun _ => 0) ⟨8, by omega⟩ = 45 ∧
    hex128_from_bytes (fun _ => 0) (fun _ => 0) ⟨hexPos 0, hexPos_lt 0 (by omega)⟩ =
      encodedDigit (temp_uuid fun _ => 0) 0 ∧
    isHexDigitByte (encodedDigit (temp_uuid fun _ => 0) 0) := by
  have h := hex_output_shape (fun _ => 0) (fun _ => 0) fun _ => by norm_num
  exact ⟨h.1, h.2.1, (h.2.2.2.2.2 0 (by omega)).1, (h.2.2.2.2.2 0 (by omega)).2⟩

/-- C9: the encoder result is a function of input bytes 0-15 alone —
two inputs agreeing there (whatever the scratch buffers hold and
whatever bytes 16-23 are) encode to identical 36-byte outputs. -/
theorem encode_first16_only (u1 u2 : Fin 24 → Nat) (b1 b2 : Fin 36 → Nat)
    (h : ∀ i : Fin 24, (i : Nat) < 16 → u1 i = u2 i) :
    hex128_from_bytes u1 b1 = hex128_from_bytes u2 b2 := by
  rw [hex128_from_bytes_eq, hex128_from_bytes_eq]
  have ht : ∀ n : Nat, n < 16 → tAt (temp_uuid u1) n = tAt (temp_uuid u2) n := by
    intro n hn
    unfold tAt
    rw [dif_pos (show n < 24 by omega), dif_pos (show n < 24 by omega)]
    by_cases e6 : n = 6
    · subst e6
      rw [show (⟨6, by omega⟩ : Fin 24) = 6 from rfl, temp6_eq, temp6_eq,
        h 9 (by decide)]
    · by_cases e8 : n = 8
      · subst e8
        rw [show (⟨8, by omega⟩ : Fin 24) = 8 from rfl, temp8_eq, temp8_eq,
          h 8 (by decide)]
      · by_cases e9 : n = 9
        · subst e9
          rw [show (⟨9, by omega⟩ : Fin 24) = 9 from rfl, temp9_eq, temp9_eq,
            h 6 (by decide)]
        · rw [temp_other_eq u1 ⟨n, by omega⟩ e6 e8 e9,
            temp_other_eq u2 ⟨n, by omega⟩ e6 e8 e9]
          exact h ⟨n, by omega⟩ hn
  funext i
  rw [outSpec, outSpec]
  split_ifs with hh
  · rfl
  · rw [encodedDigit, encodedDigit,
      ht (hexIndex (i : Nat) / 2) (hexIndex_div2_lt (i : Nat) i.isLt)]

/-- C9 witness: inputs differing only in byte 20 encode identically. -/
theorem encode_first16_only_witness :
    hex128_from_bytes (fun _ => 1) (fun _ => 0) =
      hex128_from_bytes (fun i => if (i : Nat) = 20 then 200 else 1) (fun _ => 7) :=
  encode_first16_only _ _ _ _ (by decide)

/-! ## Strings: UTF-8 byte layer

A Rust &str is a sequence of unicode scalar values stored as UTF-8
bytes; len() and indexing are in bytes, and slicing panics off a
character boundary.  We model the text as a list of Char, its byte
form through an explicit UTF-8 encoder, and byte-indexed slicing as an
Option-valued operation that is none exactly when Rust would panic. -/

/-- UTF-8 encoding of one unicode scalar value. -/
def utf8Bytes (c : Char) : List Nat :=
  if c.toNat < 0x80 then [c.toNat]
  else if c.toNat < 0x800 then [0xC0 + c.toNat / 64, 0x80 + c.toNat % 64]
  else if c.toNat < 0x10000 then
    [0xE0 + c.toNat / 4096, 0x80 + c.toNat / 64 % 64, 0x80 + c.toNat % 64]
  else
    [0xF0 + c.toNat / 262144, 0x80 + c.toNat / 4096 % 64,
     0x80 + c.toNat / 64 % 64, 0x80 + c.toNat % 64]

/-- The UTF-8 bytes of a string (str::as_bytes). -/
def strBytes : List Char → List Nat
  | [] => []
  | c :: s => utf8Bytes c ++ strBytes s

/-- The text spanning the first n bytes of a string, none when byte
position n falls inside a character (where Rust slicing panics). -/
def takeBytes : List Char → Nat → Option (List Char)
  | _, 0 => some []
  | [], _ + 1 => none
  | c :: s, n + 1 =>
    if (utf8Bytes c).length ≤ n + 1 then
      (takeBytes s (n + 1 - (utf8Bytes c).length)).map fun t => c :: t
    else none

/-- The text after the first n bytes of a string, none when byte
position n falls inside a character. -/
def dropBytes : List Char → Nat → Option (List Char)
  | s, 0 => some s
  | [], _ + 1 => none
  | c :: s, n + 1 =>
    if (utf8Bytes c).length ≤ n + 1 then
      dropBytes s (n + 1 - (utf8Bytes c).length)
    else none

/-- Byte-range slice s[a..b] of a string. -/
def sliceBytes (s : List Char) (a b : Nat) : Option (List Char) :=
  (dropBytes s a).bind fun t => takeBytes t (b - a)

/-- Generator::valid_hex: all characters are in 0-9 or a-f (char
comparison in Rust is unicode code point comparison). -/
def valid_hex (hex : List Char) : Bool :=
  hex.all fun c =>
    (decide ('0' ≤ c) && decide (c ≤ '9')) ||
    (decide ('a' ≤ c) && decide (c ≤ 'f'))

/-- Generator::is_valid_hex128.  The length and hyphen-byte tests
short-circuit before any slicing; each of the five group slices is then
taken lazily, left to right, because Rust's && only evaluates its right
operand (containing the next slice) when the left operand is true.
A none records a slicing panic; the guards make that unreachable. -/
def is_valid_hex128 (uuid : List Char) : Option Bool :=
  if (strBytes uuid).length ≠ 36 then some false
  else if (strBytes uuid).getD 8 0 ≠ 45 ∨ (strBytes uuid).getD 13 0 ≠ 45 ∨
      (strBytes uuid).getD 18 0 ≠ 45 ∨ (strBytes uuid).getD 23 0 ≠ 45 then some false
  else
    (takeBytes uuid 8).bind fun s1 =>
    if valid_hex s1 = false then some false else
    (sliceBytes uuid 9 13).bind fun s2 =>
    if valid_hex s2 = false then some false else
    (sliceBytes uuid 14 18).bind fun s3 =>
    if valid_hex s3 = false then some false else
    (sliceBytes uuid 19 23).bind fun s4 =>
    if valid_hex s4 = false then some false else
    (dropBytes uuid 24).bind fun s5 =>
    some (valid_hex s5)

/-- One step of std::str::from_utf8's validation: reads the bytes of a
single UTF-8 sequence starting with lead byte b, accepting exactly the
well-formed forms (no stray continuation byte, no overlong encoding,
no surrogate, nothing above 0x10FFFF); yields the scalar value and the
remaining bytes. -/
def utf8Step (b : Nat) (bs : List Nat) : Option (Nat × List Nat) :=
  if b < 0x80 then some (b, bs)
  else if b < 0xC2 then none
  else if b < 0xE0 then
    match bs with
    | b1 :: bs1 =>
      if 0x80 ≤ b1 ∧ b1 < 0xC0 then some ((b - 0xC0) * 64 + (b1 - 0x80), bs1)
      else none
    | [] => none
  else if b < 0xF0 then
    match bs with
    | b1 :: b2 :: bs2 =>
      if (if b = 0xE0 then 0xA0 ≤ b1 ∧ b1 < 0xC0
          else if b = 0xED then 0x80 ≤ b1 ∧ b1 < 0xA0
          else 0x80 ≤ b1 ∧ b1 < 0xC0) ∧ 0x80 ≤ b2 ∧ b2 < 0xC0 then
        some (((b - 0xE0) * 64 + (b1 - 0x80)) * 64 + (b2 - 0x80), bs2)
      else none
    | _ => none
  else if b < 0xF5 then
    match bs with
    | b1 :: b2 :: b3 :: bs3 =>
      if (if b = 0xF0 then 0x90 ≤ b1 ∧ b1 < 0xC0
          else if b = 0xF4 then 0x80 ≤ b1 ∧ b1 < 0x90
          else 0x80 ≤ b1 ∧ b1 < 0xC0) ∧
          0x80 ≤ b2 ∧ b2 < 0xC0 ∧ 0x80 ≤ b3 ∧ b3 < 0xC0 then
        some ((((b - 0xF0) * 64 + (b1 - 0x80)) * 64 + (b2 - 0x80)) * 64 + (b3 - 0x80), bs3)
      else none
    | _ => none
  else none

theorem utf8Step_length (b : Nat) (bs : List Nat) (p : Nat × List Nat)
    (h : utf8Step b bs = some p) : p.2.length ≤ bs.length := by
  unfold utf8Step at h
  split_ifs at h <;> try exact Option.noConfusion h
  all_goals try (split at h <;> try exact Option.noConfusion h)
  all_goals try (split_ifs at h <;> try exact Option.noConfusion h)
  all_goals
    simp only [Option.some.injEq] at h
  all_goals
    rw [← h]
  all_goals
    try dsimp only
  all_goals
    simp only [List.length_cons]
  all_goals
    omega

/-- std::str::from_utf8: validate and decode a byte sequence. -/
def utf8Decode : List Nat → Option (List Char)
  | [] => some []
  | b :: bs =>
    match hstep : utf8Step b bs with
    | some p => (utf8Decode p.2).map fun s => Char.ofNat p.1 :: s
    | none => none
termination_by l => l.length
decreasing_by
  simp only [List.length_cons]
  exact Nat.lt_succ_of_le (utf8Step_length b bs p hstep)

/-- Generator::hex128_as_str: encode next() into the caller's buffer
and validate the bytes as UTF-8; returns the error branch when the
validation fails.  Box(Utf8Error) carries no information we use. -/
def Generator.hex128_as_str (g : Generator) (buffer : Fin 36 → Nat) :
    Except Unit (List Char) × Generator :=
  let r := g.next
  match utf8Decode (List.ofFn (hex128_from_bytes r.1 buffer)) with
  | some s => (Except.ok s, r.2)
  | none => (Except.error (), r.2)

/-- Generator::hex128_as_string: same, with a fresh zeroed 36-byte
buffer, returning an owned string. -/
def Generator.hex128_as_string (g : Generator) :
    Except Unit (List Char) × Generator :=
  g.hex128_as_str fun _ => 0

/-! ## UTF-8 facts -/

theorem utf8Bytes_length_pos (c : Char) : 1 ≤ (utf8Bytes c).length := by
  unfold utf8Bytes
  split_ifs <;> simp

theorem utf8Bytes_ascii (c : Char) (h : c.toNat < 128) : utf8Bytes c = [c.toNat] := by
  unfold utf8Bytes
  rw [if_pos h]

theorem utf8Bytes_head_ge (c : Char) (h : 128 ≤ c.toNat) :
    128 ≤ (utf8Bytes c).getD 0 0 := by
  unfold utf8Bytes
  split_ifs <;> simp <;> omega

theorem utf8Bytes_head_lt (c : Char) (h : (utf8Bytes c).getD 0 0 < 128) :
    utf8Bytes c = [c.toNat] := by
  by_cases hc : c.toNat < 128
  · exact utf8Bytes_ascii c hc
  · have := utf8Bytes_head_ge c (by omega)
    omega

theorem utf8Bytes_tail_ge (c : Char) (k : Nat) (h1 : 1 ≤ k)
    (hk : k < (utf8Bytes c).length) : 128 ≤ (utf8Bytes c).getD k 0 := by
  unfold utf8Bytes at hk ⊢
  split_ifs at hk ⊢ <;> simp at hk <;>
    (try interval_cases k) <;> simp <;> omega

theorem strBytes_append (a b : List Char) :
    strBytes (a ++ b) = strBytes a ++ strBytes b := by
  induction a with
  | nil => rfl
  | cons c a ih => simp [strBytes, ih]

theorem strBytes_ascii (s : List Char) (h : ∀ c ∈ s, c.toNat < 128) :
    strBytes s = s.map Char.toNat := by
  induction s with
  | nil => rfl
  | cons c s ih =>
    simp only [strBytes, List.map_cons]
    rw [utf8Bytes_ascii c (h c (by simp)), ih fun d hd => h d (by simp [hd])]
    rfl

theorem strBytes_all_ascii (s : List Char) (h : ∀ b ∈ strBytes s, b < 128) :
    ∀ c ∈ s, c.toNat < 128 := by
  induction s with
  | nil => simp
  | cons c s ih =>
    intro d hd
    have hhead : (utf8Bytes c).getD 0 0 < 128 := by
      refine h _ ?_
      have h0 : 0 < (utf8Bytes c).length := utf8Bytes_length_pos c
      have : (utf8Bytes c).getD 0 0 ∈ utf8Bytes c := by
        rw [List.getD_eq_getElem _ 0 h0]
        exact List.getElem_mem h0
      show _ ∈ strBytes (c :: s)
      exact List.mem_append_left _ this
    rcases List.mem_cons.mp hd with rfl | hds
    · by_contra hc
      have := utf8Bytes_head_ge d (by omega)
      omega
    · refine ih ?_ d hds
      intro b hb
      exact h b (List.mem_append_right _ hb)

theorem takeBytes_split :
    ∀ (s : List Char) (n : Nat) (t : List Char), takeBytes s n = some t →
      ∃ r, dropBytes s n = some r ∧ s = t ++ r ∧ (strBytes t).length = n := by
  intro s
  induction s with
  | nil =>
    intro n t h
    cases n with
    | zero =>
      simp only [takeBytes, Option.some.injEq] at h
      exact ⟨[], rfl, by simp [h.symm], by simp [h.symm, strBytes]⟩
    | succ m => simp [takeBytes] at h
  | cons c s ih =>
    intro n t h
    cases n with
    | zero =>
      simp only [takeBytes, Option.some.injEq] at h
      exact ⟨c :: s, rfl, by simp [h.symm], by simp [h.symm, strBytes]⟩
    | succ m =>
      simp only [takeBytes] at h
      split_ifs at h with hL
      rcases Option.map_eq_some'.mp h with ⟨t', ht', rfl⟩
      rcases ih (m + 1 - (utf8Bytes c).length) t' ht' with ⟨r, hdrop, happ, hlen⟩
      refine ⟨r, ?_, by simp [happ], ?_⟩
      · simp only [dropBytes]
        rw [if_pos hL]
        exact hdrop
      · simp only [strBytes, List.length_append, hlen]
        omega

theorem dropBytes_split :
    ∀ (s : List Char) (n : Nat) (r : List Char), dropBytes s n = some r →
      ∃ t, takeBytes s n = some t ∧ s = t ++ r ∧ (strBytes t).length = n := by
  intro s
  induction s with
  | nil =>
    intro n r h
    cases n with
    | zero =>
      simp only [dropBytes, Option.some.injEq] at h
      exact ⟨[], rfl, by simp [h.symm], by simp [strBytes]⟩
    | succ m => simp [dropBytes] at h
  | cons c s ih =>
    intro n r h
    cases n with
    | zero =>
      simp only [dropBytes, Option.some.injEq] at h
      exact ⟨[], rfl, by simp [h.symm], by simp [strBytes]⟩
    | succ m =>
      simp only [dropBytes] at h
      split_ifs at h with hL
      rcases ih (m + 1 - (utf8Bytes c).length) r h with ⟨t', htake, happ, hlen⟩
      refine ⟨c :: t', ?_, by simp [happ], ?_⟩
      · simp only [takeBytes]
        rw [if_pos hL, htake]
        rfl
      · simp only [strBytes, List.length_append, hlen]
        omega

theorem takeBytes_strBytes (s : List Char) (n : Nat) (t : List Char)
    (h : takeBytes s n = some t) : strBytes t = (strBytes s).take n := by
  rcases takeBytes_split s n t h with ⟨r, _, happ, hlen⟩
  rw [happ, strBytes_append, ← hlen, List.take_left]

theorem dropBytes_strBytes (s : List Char) (n : Nat) (r : List Char)
    (h : dropBytes s n = some r) : strBytes r = (strBytes s).drop n := by
  rcases dropBytes_split s n r h with ⟨t, _, happ, hlen⟩
  rw [happ, strBytes_append, ← hlen, List.drop_left]

theorem isSome_map_cons (o : Option (List Char)) (c : Char) :
    ((o.map fun t => c :: t).isSome) = o.isSome := by
  cases o <;> rfl

theorem takeBytes_cons_ge (c : Char) (s : List Char) (n : Nat)
    (h : (utf8Bytes c).length ≤ n) :
    takeBytes (c :: s) n =
      (takeBytes s (n - (utf8Bytes c).length)).map fun t => c :: t := by
  cases n with
  | zero =>
    have := utf8Bytes_length_pos c
    omega
  | succ m =>
    simp only [takeBytes]
    rw [if_pos h]

theorem dropBytes_cons_ge (c : Char) (s : List Char) (n : Nat)
    (h : (utf8Bytes c).length ≤ n) :
    dropBytes (c :: s) n = dropBytes s (n - (utf8Bytes c).length) := by
  cases n with
  | zero =>
    have := utf8Bytes_length_pos c
    omega
  | succ m =>
    simp only [dropBytes]
    rw [if_pos h]

/-- A byte below 0x80 sitting at byte position n of a string makes both
n and n+1 character boundaries: all four byte-bounded take/drop
operations succeed there. -/
theorem ascii_boundary :
    ∀ (s : List Char) (n : Nat), n < (strBytes s).length →
      (strBytes s).getD n 0 < 128 →
      (takeBytes s n).isSome ∧ (takeBytes s (n + 1)).isSome ∧
      (dropBytes s n).isSome ∧ (dropBytes s (n + 1)).isSome := by
  intro s
  induction s with
  | nil => intro n hn; simp [strBytes] at hn
  | cons c s ih =>
    intro n hn hb
    by_cases hnL : n < (utf8Bytes c).length
    · have hbn : (strBytes (c :: s)).getD n 0 = (utf8Bytes c).getD n 0 := by
        show ((utf8Bytes c ++ strBytes s).getD n 0) = _
        simp [List.getD, List.getElem?_append, hnL]
      cases n with
      | zero =>
        have hone : utf8Bytes c = [c.toNat] :=
          utf8Bytes_head_lt c (by rw [← hbn]; exact hb)
        refine ⟨by simp [takeBytes], ?_, by simp [dropBytes], ?_⟩
        · simp only [takeBytes]
          rw [if_pos (by rw [hone]; simp)]
          have : takeBytes s (0 + 1 - (utf8Bytes c).length) = some [] := by
            rw [hone]
            simp [takeBytes]
          rw [this]
          simp
        · simp only [dropBytes]
          rw [if_pos (by rw [hone]; simp), hone]
          simp [dropBytes]
      | succ m =>
        exfalso
        have := utf8Bytes_tail_ge c (m + 1) (by omega) hnL
        rw [hbn] at hb
        omega
    · push_neg at hnL
      have hbn : (strBytes (c :: s)).getD n 0 = (strBytes s).getD (n - (utf8Bytes c).length) 0 := by
        show ((utf8Bytes c ++ strBytes s).getD n 0) = _
        simp [List.getD, List.getElem?_append_right, hnL]
      have hlen : n - (utf8Bytes c).length < (strBytes s).length := by
        have : (strBytes (c :: s)).length = (utf8Bytes c).length + (strBytes s).length := by
          show (utf8Bytes c ++ strBytes s).length = _
          simp
        omega
      have hrec := ih (n - (utf8Bytes c).length) hlen (by rw [← hbn]; exact hb)
      refine ⟨?_, ?_, ?_, ?_⟩
      · rw [takeBytes_cons_ge c s n hnL, isSome_map_cons]
        exact hrec.1
      · rw [takeBytes_cons_ge c s (n + 1) (by omega),
          show n + 1 - (utf8Bytes c).length = (n - (utf8Bytes c).length) + 1 by omega,
          isSome_map_cons]
        exact hrec.2.1
      · rw [dropBytes_cons_ge c s n hnL]
        exact hrec.2.2.1
      · rw [dropBytes_cons_ge c s (n + 1) (by omega),
          show n + 1 - (utf8Bytes c).length = (n - (utf8Bytes c).length) + 1 by omega]
        exact hrec.2.2.2

/-! ## Totality of the validity checker -/

theorem drop_getD (l : List Nat) (n k : Nat) :
    (l.drop n).getD k 0 = l.getD (n + k) 0 := by
  simp [List.getD, List.getElem?_drop]

theorem is_valid_total (s : List Char) : (is_valid_hex128 s).isSome := by
  unfold is_valid_hex128
  split_ifs with h1 h2
  · simp
  · simp
  · push_neg at h1 h2
    obtain ⟨e8, e13, e18, e23⟩ := h2
    have hb8 := ascii_boundary s 8 (by omega) (by rw [e8]; norm_num)
    have hb13 := ascii_boundary s 13 (by omega) (by rw [e13]; norm_num)
    have hb18 := ascii_boundary s 18 (by omega) (by rw [e18]; norm_num)
    have hb23 := ascii_boundary s 23 (by omega) (by rw [e23]; norm_num)
    rcases Option.isSome_iff_exists.mp hb8.1 with ⟨s1, hs1⟩
    rcases Option.isSome_iff_exists.mp hb8.2.2.2 with ⟨r9, hr9⟩
    have hr9b : strBytes r9 = (strBytes s).drop 9 := dropBytes_strBytes s 9 r9 hr9
    have ht2 : (takeBytes r9 4).isSome := by
      refine (ascii_boundary r9 4 ?_ ?_).1
      · rw [hr9b, List.length_drop]
        omega
      · rw [hr9b, drop_getD, show (9 : Nat) + 4 = 13 from rfl, e13]
        norm_num
    rcases Option.isSome_iff_exists.mp ht2 with ⟨s2, hs2⟩
    rcases Option.isSome_iff_exists.mp hb13.2.2.2 with ⟨r14, hr14⟩
    have hr14b : strBytes r14 = (strBytes s).drop 14 := dropBytes_strBytes s 14 r14 hr14
    have ht3 : (takeBytes r14 4).isSome := by
      refine (ascii_boundary r14 4 ?_ ?_).1
      · rw [hr14b, List.length_drop]
        omega
      · rw [hr14b, drop_getD, show (14 : Nat) + 4 = 18 from rfl, e18]
        norm_num
    rcases Option.isSome_iff_exists.mp ht3 with ⟨s3, hs3⟩
    rcases Option.isSome_iff_exists.mp hb18.2.2.2 with ⟨r19, hr19⟩
    have hr19b : strBytes r19 = (strBytes s).drop 19 := dropBytes_strBytes s 19 r19 hr19
    have ht4 : (takeBytes r19 4).isSome := by
      refine (ascii_boundary r19 4 ?_ ?_).1
      · rw [hr19b, List.length_drop]
        omega
      · rw [hr19b, drop_getD, show (19 : Nat) + 4 = 23 from rfl, e23]
        norm_num
    rcases Option.isSome_iff_exists.mp ht4 with ⟨s4, hs4⟩
    rcases Option.isSome_iff_exists.mp hb23.2.2.2 with ⟨r24, hr24⟩
    rw [hs1]
    simp only [Option.some_bind]
    by_cases hv1 : valid_hex s1 = false
    · simp [hv1]
    · rw [if_neg hv1]
      show ((sliceBytes s 9 13).bind _).isSome
      rw [sliceBytes, hr9]
      simp only [Option.some_bind, show (13 : Nat) - 9 = 4 from rfl]
      rw [hs2]
      simp only [Option.some_bind]
      by_cases hv2 : valid_hex s2 = false
      · simp [hv2]
      · rw [if_neg hv2]
        show ((sliceBytes s 14 18).bind _).isSome
        rw [sliceBytes, hr14]
        simp only [Option.some_bind, show (18 : Nat) - 14 = 4 from rfl]
        rw [hs3]
        simp only [Option.some_bind]
        by_cases hv3 : valid_hex s3 = false
        · simp [hv3]
        · rw [if_neg hv3]
          show ((sliceBytes s 19 23).bind _).isSome
          rw [sliceBytes, hr19]
          simp only [Option.some_bind, show (23 : Nat) - 19 = 4 from rfl]
          rw [hs4]
          simp only [Option.some_bind]
          by_cases hv4 : valid_hex s4 = false
          · simp [hv4]
          · rw [if_neg hv4, hr24]
            simp

/-- C10: is_valid_hex128 is total: every byte index it reads is guarded
in bounds and every byte-range slice it takes falls on character
boundaries (the hyphen-byte checks at 8, 13, 18, 23 force ASCII bytes
at all slice points), so it returns a boolean — never a panic — on
every string, including ones holding multi-byte characters. -/
theorem is_valid_hex128_total (s : List Char) :
    (is_valid_hex128 s).isSome = true :=
  is_valid_total s

/-! ## The shape recognized by the validity checker -/

/-- The spec's description of a valid hex128 string: exactly 36 bytes,
hyphen bytes at positions 8, 13, 18, 23, and a lowercase hex digit
byte at each of the other 32 positions. -/
def ValidShape (s : List Char) : Prop :=
  (strBytes s).length = 36 ∧
  (strBytes s).getD 8 0 = 45 ∧ (strBytes s).getD 13 0 = 45 ∧
  (strBytes s).getD 18 0 = 45 ∧ (strBytes s).getD 23 0 = 45 ∧
  ∀ k : Nat, k < 36 → k ≠ 8 → k ≠ 13 → k ≠ 18 → k ≠ 23 →
    isHexDigitByte ((strBytes s).getD k 0)

instance (s : List Char) : Decidable (ValidShape s) := by
  unfold ValidShape
  letI : Decidable (∀ k : Nat, k < 36 → k ≠ 8 → k ≠ 13 → k ≠ 18 → k ≠ 23 →
      isHexDigitByte ((strBytes s).getD k 0)) :=
    Nat.decidableBallLT 36 _
  infer_instance

theorem valid_hex_mem (t : List Char) (h : valid_hex t = true)
    (c : Char) (hc : c ∈ t) : isHexDigitByte c.toNat := by
  rw [valid_hex, List.all_eq_true] at h
  have hcb := h c hc
  simp only [Bool.or_eq_true, Bool.and_eq_true, decide_eq_true_eq] at hcb
  rcases hcb with h1 | h2
  · exact Or.inl ⟨h1.1, h1.2⟩
  · exact Or.inr ⟨h2.1, h2.2⟩

theorem valid_hex_of_all (t : List Char)
    (h : ∀ c ∈ t, isHexDigitByte c.toNat) : valid_hex t = true := by
  rw [valid_hex, List.all_eq_true]
  intro c hc
  simp only [Bool.or_eq_true, Bool.and_eq_true, decide_eq_true_eq]
  rcases h c hc with h1 | h2
  · exact Or.inl ⟨h1.1, h1.2⟩
  · exact Or.inr ⟨h2.1, h2.2⟩

theorem valid_hex_ascii (t : List Char) (h : valid_hex t = true) :
    ∀ c ∈ t, c.toNat < 128 := by
  intro c hc
  rcases valid_hex_mem t h c hc with h1 | h2 <;> omega

theorem valid_hex_strBytes (t : List Char) (h : valid_hex t = true) :
    ∀ b ∈ strBytes t, isHexDigitByte b := by
  intro b hb
  rw [strBytes_ascii t (valid_hex_ascii t h)] at hb
  rcases List.mem_map.mp hb with ⟨c, hc, rfl⟩
  exact valid_hex_mem t h c hc

theorem take_getD (l : List Nat) (n k : Nat) (h : k < n) :
    (l.take n).getD k 0 = l.getD k 0 := by
  simp [List.getD, List.getElem?_take, h]

theorem mem_take_drop_getD (l : List Nat) (a m b : Nat)
    (hb : b ∈ (l.drop a).take m) :
    ∃ k, k < m ∧ a + k < l.length ∧ l.getD (a + k) 0 = b := by
  rcases List.mem_iff_getElem.mp hb with ⟨k, hk, he⟩
  have hk1 : k < m := by
    have := hk
    simp only [List.length_take, List.length_drop] at this
    omega
  have hk2 : a + k < l.length := by
    have := hk
    simp only [List.length_take, List.length_drop] at this
    omega
  refine ⟨k, hk1, hk2, ?_⟩
  rw [List.getD_eq_getElem l 0 hk2, ← he, List.getElem_take, List.getElem_drop]

theorem getD_mem_take_drop (l : List Nat) (a m k : Nat) (hk : k < m)
    (hlen : a + m ≤ l.length) : l.getD (a + k) 0 ∈ (l.drop a).take m := by
  have hlt : k < ((l.drop a).take m).length := by
    simp only [List.length_take, List.length_drop]
    omega
  have he : ((l.drop a).take m).get ⟨k, hlt⟩ = l.getD (a + k) 0 := by
    rw [List.get_eq_getElem, List.getElem_take, List.getElem_drop,
      List.getD_eq_getElem l 0 (by omega)]
  rw [← he]
  exact List.get_mem _ k hlt

/-- On inputs passing the length and hyphen guards, the checker slices
the five digit groups successfully and returns the conjunction of
their digit checks. -/
theorem is_valid_chain (s : List Char) (h1 : (strBytes s).length = 36)
    (e8 : (strBytes s).getD 8 0 = 45) (e13 : (strBytes s).getD 13 0 = 45)
    (e18 : (strBytes s).getD 18 0 = 45) (e23 : (strBytes s).getD 23 0 = 45) :
    ∃ s1 s2 s3 s4 s5 : List Char,
      strBytes s1 = (strBytes s).take 8 ∧
      strBytes s2 = ((strBytes s).drop 9).take 4 ∧
      strBytes s3 = ((strBytes s).drop 14).take 4 ∧
      strBytes s4 = ((strBytes s).drop 19).take 4 ∧
      strBytes s5 = (strBytes s).drop 24 ∧
      is_valid_hex128 s = some (valid_hex s1 && valid_hex s2 &&
        valid_hex s3 && valid_hex s4 && valid_hex s5) := by
  have hb8 := ascii_boundary s 8 (by omega) (by rw [e8]; norm_num)
  have hb13 := ascii_boundary s 13 (by omega) (by rw [e13]; norm_num)
  have hb18 := ascii_boundary s 18 (by omega) (by rw [e18]; norm_num)
  have hb23 := ascii_boundary s 23 (by omega) (by rw [e23]; norm_num)
  rcases Option.isSome_iff_exists.mp hb8.1 with ⟨s1, hs1⟩
  rcases Option.isSome_iff_exists.mp hb8.2.2.2 with ⟨r9, hr9⟩
  have hr9b : strBytes r9 = (strBytes s).drop 9 := dropBytes_strBytes s 9 r9 hr9
  have ht2 : (takeBytes r9 4).isSome := by
    refine (ascii_boundary r9 4 ?_ ?_).1
    · rw [hr9b, List.length_drop]
      omega
    · rw [hr9b, drop_getD, show (9 : Nat) + 4 = 13 from rfl, e13]
      norm_num
  rcases Option.isSome_iff_exists.mp ht2 with ⟨s2, hs2⟩
  rcases Option.isSome_iff_exists.mp hb13.2.2.2 with ⟨r14, hr14⟩
  have hr14b : strBytes r14 = (strBytes s).drop 14 := dropBytes_strBytes s 14 r14 hr14
  have ht3 : (takeBytes r14 4).isSome := by
    refine (ascii_boundary r14 4 ?_ ?_).1
    · rw [hr14b, List.length_drop]
      omega
    · rw [hr14b, drop_getD, show (14 : Nat) + 4 = 18 from rfl, e18]
      norm_num
  rcases Option.isSome_iff_exists.mp ht3 with ⟨s3, hs3⟩
  rcases Option.isSome_iff_exists.mp hb18.2.2.2 with ⟨r19, hr19⟩
  have hr19b : strBytes r19 = (strBytes s).drop 19 := dropBytes_strBytes s 19 r19 hr19
  have ht4 : (takeBytes r19 4).isSome := by
    refine (ascii_boundary r19 4 ?_ ?_).1
    · rw [hr19b, List.length_drop]
      omega
    · rw [hr19b, drop_getD, show (19 : Nat) + 4 = 23 from rfl, e23]
      norm_num
  rcases Option.isSome_iff_exists.mp ht4 with ⟨s4, hs4⟩
  rcases Option.isSome_iff_exists.mp hb23.2.2.2 with ⟨r24, hr24⟩
  refine ⟨s1, s2, s3, s4, r24, takeBytes_strBytes s 8 s1 hs1, ?_, ?_, ?_,
    dropBytes_strBytes s 24 r24 hr24, ?_⟩
  · rw [takeBytes_strBytes r9 4 s2 hs2, hr9b]
  · rw [takeBytes_strBytes r14 4 s3 hs3, hr14b]
  · rw [takeBytes_strBytes r19 4 s4 hs4, hr19b]
  · unfold is_valid_hex128
    rw [if_neg (by omega), if_neg (by push_neg; exact ⟨e8, e13, e18, e23⟩), hs1]
    simp only [Option.some_bind]
    rw [show sliceBytes s 9 13 = some s2 by rw [sliceBytes, hr9]; simpa using hs2,
      show sliceBytes s 14 18 = some s3 by rw [sliceBytes, hr14]; simpa using hs3,
      show sliceBytes s 19 23 = some s4 by rw [sliceBytes, hr19]; simpa using hs4,
      hr24]
    cases hv1 : valid_hex s1 <;> cases hv2 : valid_hex s2 <;>
      cases hv3 : valid_hex s3 <;> cases hv4 : valid_hex s4 <;>
      simp [hv1, hv2, hv3, hv4]

theorem valid_hex_of_strBytes (t : List Char)
    (h : ∀ b ∈ strBytes t, isHexDigitByte b) : valid_hex t = true := by
  have hascii : ∀ c ∈ t, c.toNat < 128 := by
    refine strBytes_all_ascii t ?_
    intro b hb
    rcases h b hb with h1 | h2 <;> omega
  refine valid_hex_of_all t ?_
  intro c hc
  refine h c.toNat ?_
  rw [strBytes_ascii t hascii]
  exact List.mem_map.mpr ⟨c, hc, rfl⟩

theorem is_valid_true_iff (s : List Char) :
    is_valid_hex128 s = some true ↔ ValidShape s := by
  by_cases h1 : (strBytes s).length = 36
  · by_cases h2 : (strBytes s).getD 8 0 = 45 ∧ (strBytes s).getD 13 0 = 45 ∧
        (strBytes s).getD 18 0 = 45 ∧ (strBytes s).getD 23 0 = 45
    · obtain ⟨e8, e13, e18, e23⟩ := h2
      rcases is_valid_chain s h1 e8 e13 e18 e23 with
        ⟨s1, s2, s3, s4, s5, hb1, hb2, hb3, hb4, hb5, hval⟩
      rw [hval]
      constructor
      · intro h
        simp only [Option.some.injEq, Bool.and_eq_true] at h
        obtain ⟨⟨⟨⟨hv1, hv2⟩, hv3⟩, hv4⟩, hv5⟩ := h
        refine ⟨h1, e8, e13, e18, e23, ?_⟩
        intro k hk k8 k13 k18 k23
        by_cases hz1 : k < 8
        · refine valid_hex_strBytes s1 hv1 _ ?_
          rw [hb1]
          have := getD_mem_take_drop (strBytes s) 0 8 k hz1 (by omega)
          simpa using this
        · by_cases hz2 : k < 13
          · refine valid_hex_strBytes s2 hv2 _ ?_
            rw [hb2, show k = 9 + (k - 9) by omega]
            exact getD_mem_take_drop (strBytes s) 9 4 (k - 9) (by omega) (by omega)
          · by_cases hz3 : k < 18
            · refine valid_hex_strBytes s3 hv3 _ ?_
              rw [hb3, show k = 14 + (k - 14) by omega]
              exact getD_mem_take_drop (strBytes s) 14 4 (k - 14) (by omega) (by omega)
            · by_cases hz4 : k < 23
              · refine valid_hex_strBytes s4 hv4 _ ?_
                rw [hb4, show k = 19 + (k - 19) by omega]
                exact getD_mem_take_drop (strBytes s) 19 4 (k - 19) (by omega) (by omega)
              · refine valid_hex_strBytes s5 hv5 _ ?_
                have h24 : (strBytes s).drop 24 = ((strBytes s).drop 24).take 12 := by
                  rw [List.take_of_length_le]
                  rw [List.length_drop]
                  omega
                rw [hb5, h24, show k = 24 + (k - 24) by omega]
                exact getD_mem_take_drop (strBytes s) 24 12 (k - 24) (by omega) (by omega)
      · intro hvs
        obtain ⟨_, _, _, _, _, hhex⟩ := hvs
        have hv1 : valid_hex s1 = true := by
          refine valid_hex_of_strBytes s1 ?_
          rw [hb1]
          intro b hb
          rcases mem_take_drop_getD (strBytes s) 0 8 b (by simpa using hb) with
            ⟨k, hk, hkl, he⟩
          rw [← he, Nat.zero_add]
          exact hhex k (by omega) (by omega) (by omega) (by omega) (by omega)
        have hv2 : valid_hex s2 = true := by
          refine valid_hex_of_strBytes s2 ?_
          rw [hb2]
          intro b hb
          rcases mem_take_drop_getD (strBytes s) 9 4 b hb with ⟨k, hk, hkl, he⟩
          rw [← he]
          exact hhex (9 + k) (by omega) (by omega) (by omega) (by omega) (by omega)
        have hv3 : valid_hex s3 = true := by
          refine valid_hex_of_strBytes s3 ?_
          rw [hb3]
          intro b hb
          rcases mem_take_drop_getD (strBytes s) 14 4 b hb with ⟨k, hk, hkl, he⟩
          rw [← he]
          exact hhex (14 + k) (by omega) (by omega) (by omega) (by omega) (by omega)
        have hv4 : valid_hex s4 = true := by
          refine valid_hex_of_strBytes s4 ?_
          rw [hb4]
          intro b hb
          rcases mem_take_drop_getD (strBytes s) 19 4 b hb with ⟨k, hk, hkl, he⟩
          rw [← he]
          exact hhex (19 + k) (by omega) (by omega) (by omega) (by omega) (by omega)
        have hv5 : valid_hex s5 = true := by
          refine valid_hex_of_strBytes s5 ?_
          have h24 : (strBytes s).drop 24 = ((strBytes s).drop 24).take 12 := by
            rw [List.take_of_length_le]
            rw [List.length_drop]
            omega
          rw [hb5, h24]
          intro b hb
          rcases mem_take_drop_getD (strBytes s) 24 12 b hb with ⟨k, hk, hkl, he⟩
          rw [← he]
          exact hhex (24 + k) (by omega) (by omega) (by omega) (by omega) (by omega)
        rw [hv1, hv2, hv3, hv4, hv5]
        rfl
    · constructor
      · intro h
        exfalso
        unfold is_valid_hex128 at h
        rw [if_neg (by omega)] at h
        rw [if_pos (by tauto)] at h
        simp at h
      · intro hvs
        exfalso
        obtain ⟨_, e8, e13, e18, e23, _⟩ := hvs
        exact h2 ⟨e8, e13, e18, e23⟩
  · constructor
    · intro h
      exfalso
      unfold is_valid_hex128 at h
      rw [if_pos (by omega)] at h
      simp at h
    · intro hvs
      exact absurd hvs.1 h1

/-- C5: the checker answers true exactly on the 36-byte strings with
hyphens at byte positions 8, 13, 18, 23 and lowercase hex digit bytes
everywhere else; on every other string — uppercase hex included — it
answers false. -/
theorem is_valid_hex128_spec (s : List Char) :
    (is_valid_hex128 s = some true ↔ ValidShape s) ∧
    (¬ ValidShape s → is_valid_hex128 s = some false) := by
  refine ⟨is_valid_true_iff s, fun hns => ?_⟩
  rcases Option.isSome_iff_exists.mp (is_valid_total s) with ⟨b, hb⟩
  cases b
  · exact hb
  · exact absurd ((is_valid_true_iff s).mp hb) hns

/-- C5 witness: the checker accepts a canonical lowercase example and
rejects its uppercase variant. -/
theorem is_valid_hex128_spec_witness :
    is_valid_hex128 ("11febf98-c108-4383-bb1e-739ffcd44341".toList) = some true ∧
    is_valid_hex128 ("11FEBF98-C108-4383-BB1E-739FFCD44341".toList) = some false := by
  constructor
  · exact (is_valid_hex128_spec _).1.mpr (by decide)
  · exact (is_valid_hex128_spec _).2 (by decide)

/-! ## Round trip: encoder output is valid -/

theorem toNat_ofNat_lt (b : Nat) (h : b < 128) : (Char.ofNat b).toNat = b := by
  have hv : b.isValidChar := Or.inl (by omega)
  rw [Char.ofNat, dif_pos hv]
  rfl

theorem strBytes_map_ofNat (l : List Nat) (h : ∀ b ∈ l, b < 128) :
    strBytes (l.map Char.ofNat) = l := by
  induction l with
  | nil => rfl
  | cons b bs ih =>
    have hb : b < 128 := h b (by simp)
    simp only [List.map_cons, strBytes]
    rw [utf8Bytes_ascii _ (by rw [toNat_ofNat_lt b hb]; exact hb),
      toNat_ofNat_lt b hb, ih fun x hx => h x (by simp [hx])]
    rfl

theorem getD_ofFn (f : Fin 36 → Nat) (k : Nat) (hk : k < 36) :
    (List.ofFn f).getD k 0 = f ⟨k, hk⟩ := by
  rw [List.getD_eq_getElem _ 0 (by simp [hk]), List.getElem_ofFn]

theorem out_byte_hyphen (uuid : Fin 24 → Nat) (buffer : Fin 36 → Nat)
    (k : Nat) (hk : k < 36) (h : k = 8 ∨ k = 13 ∨ k = 18 ∨ k = 23) :
    hex128_from_bytes uuid buffer ⟨k, hk⟩ = 45 := by
  rw [hex128_from_bytes_eq]
  unfold outSpec
  rw [if_pos (show k = 8 ∨ k = 13 ∨ k = 18 ∨ k = 23 from h)]

theorem out_byte_hex (uuid : Fin 24 → Nat) (buffer : Fin 36 → Nat)
    (hwf : ∀ i : Fin 24, uuid i < 256) (k : Nat) (hk : k < 36)
    (k8 : k ≠ 8) (k13 : k ≠ 13) (k18 : k ≠ 18) (k23 : k ≠ 23) :
    isHexDigitByte (hex128_from_bytes uuid buffer ⟨k, hk⟩) := by
  rw [hex128_from_bytes_eq]
  unfold outSpec
  rw [if_neg (show ¬(k = 8 ∨ k = 13 ∨ k = 18 ∨ k = 23) by omega)]
  exact encodedDigit_isHexDigitByte uuid hwf _

theorem out_bytes_lt128 (uuid : Fin 24 → Nat) (buffer : Fin 36 → Nat)
    (hwf : ∀ i : Fin 24, uuid i < 256) :
    ∀ b ∈ List.ofFn (hex128_from_bytes uuid buffer), b < 128 := by
  intro b hb
  rcases Set.mem_range.mp ((List.mem_ofFn _ _).mp hb) with ⟨i, rfl⟩
  have hi : (i : Nat) < 36 := i.isLt
  have heta : hex128_from_bytes uuid buffer i =
      hex128_from_bytes uuid buffer ⟨(i : Nat), hi⟩ := rfl
  rw [heta]
  by_cases hh : (i : Nat) = 8 ∨ (i : Nat) = 13 ∨ (i : Nat) = 18 ∨ (i : Nat) = 23
  · rw [out_byte_hyphen uuid buffer _ hi hh]
    omega
  · push_neg at hh
    rcases out_byte_hex uuid buffer hwf _ hi hh.1 hh.2.1 hh.2.2.1 hh.2.2.2 with
      h1 | h2 <;> omega

/-- C6: every 24-byte value the encoder processes yields a string the
validity checker accepts. -/
theorem encode_is_valid (uuid : Fin 24 → Nat) (buffer : Fin 36 → Nat)
    (hwf : ∀ i : Fin 24, uuid i < 256) :
    is_valid_hex128 ((List.ofFn (hex128_from_bytes uuid buffer)).map Char.ofNat) =
      some true := by
  refine (is_valid_true_iff _).mpr ?_
  have hbs : strBytes ((List.ofFn (hex128_from_bytes uuid buffer)).map Char.ofNat) =
      List.ofFn (hex128_from_bytes uuid buffer) :=
    strBytes_map_ofNat _ (out_bytes_lt128 uuid buffer hwf)
  rw [ValidShape, hbs]
  refine ⟨by simp, ?_, ?_, ?_, ?_, ?_⟩
  · rw [getD_ofFn _ 8 (by omega)]
    exact out_byte_hyphen uuid buffer 8 (by omega) (by omega)
  · rw [getD_ofFn _ 13 (by omega)]
    exact out_byte_hyphen uuid buffer 13 (by omega) (by omega)
  · rw [getD_ofFn _ 18 (by omega)]
    exact out_byte_hyphen uuid buffer 18 (by omega) (by omega)
  · rw [getD_ofFn _ 23 (by omega)]
    exact out_byte_hyphen uuid buffer 23 (by omega) (by omega)
  · intro k hk k8 k13 k18 k23
    rw [getD_ofFn _ k hk]
    exact out_byte_hex uuid buffer hwf k hk k8 k13 k18 k23

/-- C6 witness at a concrete input. -/
theorem encode_is_valid_witness :
    is_valid_hex128 ((List.ofFn (hex128_from_bytes (fun _ => 255) fun _ => 3)).map
      Char.ofNat) = some true :=
  encode_is_valid (fun _ => 255) (fun _ => 3) fun _ => by norm_num

/-! ## Checked entry points never fail -/

theorem utf8Decode_cons_some (b : Nat) (bs : List Nat) (p : Nat × List Nat)
    (h : utf8Step b bs = some p) :
    utf8Decode (b :: bs) = (utf8Decode p.2).map fun s => Char.ofNat p.1 :: s := by
  rw [utf8Decode.eq_def]
  dsimp only
  split
  · rename_i q hq
    rw [h] at hq
    simp only [Option.some.injEq] at hq
    rw [hq]
  · rename_i hq
    rw [h] at hq
    exact Option.noConfusion hq

theorem utf8Decode_ascii (l : List Nat) (h : ∀ b ∈ l, b < 128) :
    utf8Decode l = some (l.map Char.ofNat) := by
  induction l with
  | nil => simp [utf8Decode]
  | cons b bs ih =>
    have hstep : utf8Step b bs = some (b, bs) := by
      unfold utf8Step
      rw [if_pos (h b (by simp))]
    rw [utf8Decode_cons_some b bs (b, bs) hstep]
    rw [ih fun x hx => h x (by simp [hx])]
    rfl

/-- C7: both checked encoding entry points always return the Ok branch:
the encoder's output alphabet is ASCII, so the UTF-8 validation of the
produced buffer cannot fail. -/
theorem checked_entry_points_ok (g : Generator) (buffer : Fin 36 → Nat)
    (hseed : ∀ i : Fin 24, g.seed i < 256) :
    (∃ s, (g.hex128_as_str buffer).1 = Except.ok s) ∧
    (∃ s, g.hex128_as_string.1 = Except.ok s) := by
  have huuid : ∀ i : Fin 24, (g.next).1 i < 256 := by
    intro i
    simp only [Generator.next]
    split_ifs
    · exact Nat.mod_lt _ (by norm_num)
    · exact hseed i
  constructor
  · refine ⟨((List.ofFn (hex128_from_bytes (g.next).1 buffer)).map Char.ofNat), ?_⟩
    rw [Generator.hex128_as_str]
    rw [utf8Decode_ascii _ (out_bytes_lt128 _ buffer huuid)]
  · refine ⟨((List.ofFn (hex128_from_bytes (g.next).1 fun _ => 0)).map Char.ofNat), ?_⟩
    rw [Generator.hex128_as_string, Generator.hex128_as_str]
    rw [utf8Decode_ascii _ (out_bytes_lt128 _ (fun _ => 0) huuid)]

/-- C7 witness at a concrete state. -/
theorem checked_entry_points_ok_witness :
    (∃ s, ((Generator.mk (fun _ => 10) 4).hex128_as_str fun _ => 0).1 = Except.ok s) ∧
    (∃ s, (Generator.mk (fun _ => 10) 4).hex128_as_string.1 = Except.ok s) :=
  checked_entry_points_ok ⟨fun _ => 10, 4⟩ (fun _ => 0) fun _ => by norm_num

end Fastuuid
